import Mathlib

/-!
Verification of the dispatch engine of the Ssalmuk-Gemini proxy.

This file shallowly embeds the parts of `app/queue_manager.py` and
`app/gemini_client.py` that the specification's claims talk about:

* `GoogleApiKeyManager` (the credential pool): `get_available_key`,
  `record_usage`, together with a small-step protocol relation `KMStep`
  describing how the single dispatcher thread drives the pool.
* `QueueItem` and its ordering `__lt__`, the priority-queue pop.
* `QueueManager.clean_old_results` (TTL GC), `get_request_status`,
  and the HTTP status endpoint of `app/routers/generate.py`.
* `GeminiClient.execute_with_retry` (the retry / key-rotation state machine),
  driven by an abstract upstream oracle.
* The dispatcher's concurrency accounting (`active_requests`,
  `max_concurrent`) as a small-step interleaving system.

Timestamps (`time.time()`) are modelled as rationals; Python ints are `Int`
where they can go negative (`available_capacity`) and `Nat` otherwise.
Upstream credentials ("Google API keys") are modelled by their pool index.
-/

/-! ## Credential pool: `GoogleApiKeyManager` (queue_manager.py lines 32-117) -/

/-- State of `GoogleApiKeyManager`: the key list, the per-key RPM budget,
the per-key timestamp ring (`key_timestamps`, a deque of capacity
`2 * rpm_per_key`, oldest first) and the per-key last request time
(`last_request_times`). -/
structure KMState where
  keys : List Nat
  rpm : Nat
  ringsOf : Nat → List ℚ
  lastOf : Nat → ℚ

/-- Initial manager state (`__init__`): empty rings, `last_request_times` 0. -/
def kmInit (keys : List Nat) (rpm : Nat) : KMState :=
  { keys := keys, rpm := rpm, ringsOf := fun _ => [], lastOf := fun _ => 0 }

/-- Pruning a timestamp ring at time `t`: keep entries `> t - 60`, rebuilt as a
deque with the same `maxlen = 2 * rpm` (which keeps the last `maxlen` entries;
the `drop` is the total model of that truncation). Lines 62-67. -/
def pruneRing (rpm : Nat) (t : ℚ) (ring : List ℚ) : List ℚ :=
  let filtered := ring.filter (fun ts => decide (t - 60 < ts))
  filtered.drop (filtered.length - 2 * rpm)

/-- One iteration of the selection loop of `get_available_key` (lines 60-84):
prune the key's ring, compute `available_capacity = rpm - len(ring)` and
`interval_ok = (t - last >= 60 / rpm)`, and take the key as new best when
`available_capacity > max_capacity and interval_ok`.  The accumulator is
`(best_key, max_capacity, key_timestamps)`. -/
def gakStep (rpm : Nat) (lastOf : Nat → ℚ) (t : ℚ)
    (acc : Option Nat × Int × (Nat → List ℚ)) (key : Nat) :
    Option Nat × Int × (Nat → List ℚ) :=
  let pruned := pruneRing rpm t (acc.2.2 key)
  let rings' := Function.update acc.2.2 key pruned
  let cap : Int := (rpm : Int) - pruned.length
  if acc.2.1 < cap ∧ (60 : ℚ) / (rpm : ℚ) ≤ t - lastOf key then
    (some key, cap, rings')
  else
    (acc.1, acc.2.1, rings')

/-- `get_available_key` (lines 54-86): fold the selection loop over the key
list starting from `best_key = None`, `max_capacity = -1`; returns the chosen
key and the state with every ring pruned. -/
def get_available_key (s : KMState) (t : ℚ) : Option Nat × KMState :=
  let r := s.keys.foldl (gakStep s.rpm s.lastOf t) (none, -1, s.ringsOf)
  (r.1, { s with ringsOf := r.2.2 })

/-- `record_usage` (lines 88-93): append the current time to the key's ring
(deque append drops the oldest entry when the ring is at `maxlen`) and set
`last_request_times[key]`. -/
def record_usage (s : KMState) (k : Nat) (t : ℚ) : KMState :=
  let appended := s.ringsOf k ++ [t]
  { s with
    ringsOf := Function.update s.ringsOf k (appended.drop (appended.length - 2 * s.rpm)),
    lastOf := Function.update s.lastOf k t }

/-- Pruned available capacity of key `j` at time `t`, the
`available_capacity` of line 70. -/
def capAt (s : KMState) (t : ℚ) (j : Nat) : Int :=
  (s.rpm : Int) - (pruneRing s.rpm t (s.ringsOf j)).length

/-- The minimum-interval guard `interval_ok` of line 79 for key `j`. -/
def intervalOkAt (s : KMState) (t : ℚ) (j : Nat) : Prop :=
  (60 : ℚ) / (s.rpm : ℚ) ≤ t - s.lastOf j

/-! ### Ring effect of the selection loop

The loop of `get_available_key` prunes every key it visits, independently of
the selection outcome.  `prunedAll` is that ring effect in isolation. -/

/-- Ring effect of visiting the keys in order: each visited key's ring is
replaced by its pruned version. -/
def prunedAll (rpm : Nat) (t : ℚ) : List Nat → (Nat → List ℚ) → (Nat → List ℚ)
  | [], r => r
  | k :: ks, r => prunedAll rpm t ks (Function.update r k (pruneRing rpm t (r k)))

lemma gakFold_rings (rpm : Nat) (lastOf : Nat → ℚ) (t : ℚ) :
    ∀ (ks : List Nat) (r : Nat → List ℚ) (b : Option Nat) (mc : Int),
      (ks.foldl (gakStep rpm lastOf t) (b, mc, r)).2.2 = prunedAll rpm t ks r := by
  intro ks
  induction ks with
  | nil => intro r b mc; rfl
  | cons key rest ih =>
    intro r b mc
    show (rest.foldl (gakStep rpm lastOf t) (gakStep rpm lastOf t (b, mc, r) key)).2.2 = _
    rw [prunedAll]
    by_cases h : mc < (rpm : Int) - (pruneRing rpm t (r key)).length ∧
        (60 : ℚ) / (rpm : ℚ) ≤ t - lastOf key
    · rw [show gakStep rpm lastOf t (b, mc, r) key
          = (some key, (rpm : Int) - (pruneRing rpm t (r key)).length,
             Function.update r key (pruneRing rpm t (r key))) from by
        simp [gakStep, h]]
      exact ih _ _ _
    · rw [show gakStep rpm lastOf t (b, mc, r) key
          = (b, mc, Function.update r key (pruneRing rpm t (r key))) from by
        simp [gakStep, if_neg h]]
      exact ih _ _ _

lemma prunedAll_notMem (rpm : Nat) (t : ℚ) :
    ∀ (ks : List Nat) (r : Nat → List ℚ) (k : Nat), k ∉ ks → prunedAll rpm t ks r k = r k := by
  intro ks
  induction ks with
  | nil => intro r k _; rfl
  | cons key rest ih =>
    intro r k hk
    rw [prunedAll, ih _ _ (fun h => hk (List.mem_cons_of_mem _ h))]
    exact Function.update_noteq (by rintro rfl; exact hk (List.mem_cons_self _ _)) _ _

/-- Every ring after the selection loop is a sublist of the ring before. -/
lemma prunedAll_sublist (rpm : Nat) (t : ℚ) :
    ∀ (ks : List Nat) (r : Nat → List ℚ) (k : Nat), (prunedAll rpm t ks r k).Sublist (r k) := by
  intro ks
  induction ks with
  | nil => intro r k; exact List.Sublist.refl _
  | cons key rest ih =>
    intro r k
    rw [prunedAll]
    refine (ih _ k).trans ?_
    by_cases h : k = key
    · subst h
      rw [Function.update_same]
      exact ((List.drop_sublist _ _).trans (List.filter_sublist _))
    · rw [Function.update_noteq h]

/-- After the selection loop has visited key `k`, every entry of `k`'s ring is
inside the 60-second window that ends at `t`. -/
lemma prunedAll_mem_window (rpm : Nat) (t : ℚ) :
    ∀ (ks : List Nat) (r : Nat → List ℚ) (k : Nat), k ∈ ks →
      ∀ x ∈ prunedAll rpm t ks r k, t - 60 < x := by
  intro ks
  induction ks with
  | nil => intro r k hk; exact absurd hk (List.not_mem_nil k)
  | cons key rest ih =>
    intro r k hk x hx
    by_cases hkr : k ∈ rest
    · exact ih _ k hkr x (by rwa [prunedAll] at hx)
    · have hkey : k = key := by
        rcases List.mem_cons.1 hk with h | h
        · exact h
        · exact absurd h hkr
      subst hkey
      rw [prunedAll, prunedAll_notMem rpm t rest _ k hkr, Function.update_same] at hx
      have hx' : x ∈ (r k).filter (fun ts => decide (t - 60 < ts)) :=
        List.mem_of_mem_drop hx
      have := List.of_mem_filter hx'
      exact of_decide_eq_true this

/-- If the selection loop elects key `k` then either `k` was already the best
before the loop ran, or `k` is one of the visited keys and satisfied the
minimum-interval guard `interval_ok`. -/
lemma gakFold_elig (rpm : Nat) (lastOf : Nat → ℚ) (t : ℚ) :
    ∀ (ks : List Nat) (r : Nat → List ℚ) (b : Option Nat) (mc : Int) (k : Nat),
      (ks.foldl (gakStep rpm lastOf t) (b, mc, r)).1 = some k →
      b = some k ∨ (k ∈ ks ∧ (60 : ℚ) / (rpm : ℚ) ≤ t - lastOf k) := by
  intro ks
  induction ks with
  | nil => intro r b mc k h; exact Or.inl h
  | cons key rest ih =>
    intro r b mc k h
    change (rest.foldl (gakStep rpm lastOf t) (gakStep rpm lastOf t (b, mc, r) key)).1 = some k at h
    by_cases hc : mc < (rpm : Int) - (pruneRing rpm t (r key)).length ∧
        (60 : ℚ) / (rpm : ℚ) ≤ t - lastOf key
    · rw [show gakStep rpm lastOf t (b, mc, r) key
          = (some key, (rpm : Int) - (pruneRing rpm t (r key)).length,
             Function.update r key (pruneRing rpm t (r key))) from by
        simp [gakStep, hc]] at h
      rcases ih _ _ _ _ h with h1 | h1
      · have : key = k := by injection h1
        exact Or.inr ⟨this ▸ List.mem_cons_self _ _, this ▸ hc.2⟩
      · exact Or.inr ⟨List.mem_cons_of_mem _ h1.1, h1.2⟩
    · rw [show gakStep rpm lastOf t (b, mc, r) key
          = (b, mc, Function.update r key (pruneRing rpm t (r key))) from by
        simp [gakStep, if_neg hc]] at h
      rcases ih _ _ _ _ h with h1 | h1
      · exact Or.inl h1
      · exact Or.inr ⟨List.mem_cons_of_mem _ h1.1, h1.2⟩

/-! ### The dispatcher protocol over the pool, and the RPM window invariant

`queue_manager.py` drives the pool from the single dispatcher thread
(`_process_queue`): each tick calls `get_available_key` and then either drops
the result (empty queue / failed pop, lines 266-276) or records exactly one
use of the returned key at a time no earlier than the selection
(`record_usage`, line 285).  `get_all_keys_status` (stats endpoints) only
prunes, which has the same ring effect as a selection.  `KMStep` is exactly
this interface. -/

/-- One protocol step of the system on the pool state. -/
inductive KMStep : KMState → KMState → Prop
  | selectOnly (s : KMState) (t : ℚ) : KMStep s (get_available_key s t).2
  | selectRecord (s : KMState) (t t' : ℚ) (k : Nat) (ht : t ≤ t')
      (hk : (get_available_key s t).1 = some k) :
      KMStep s (record_usage (get_available_key s t).2 k t')

/-- Pool states reachable from `GoogleApiKeyManager.__init__`. -/
inductive KMReach (keys : List Nat) (rpm : Nat) : KMState → Prop
  | init : KMReach keys rpm (kmInit keys rpm)
  | step {s s' : KMState} : KMReach keys rpm s → KMStep s s' → KMReach keys rpm s'

lemma gak_state_rings (s : KMState) (t : ℚ) :
    (get_available_key s t).2.ringsOf = prunedAll s.rpm t s.keys s.ringsOf := by
  show (s.keys.foldl (gakStep s.rpm s.lastOf t) (none, -1, s.ringsOf)).2.2 = _
  exact gakFold_rings s.rpm s.lastOf t s.keys s.ringsOf none (-1)

lemma kmStep_keys_rpm {s s' : KMState} (hstep : KMStep s s') :
    s'.keys = s.keys ∧ s'.rpm = s.rpm := by
  cases hstep with
  | selectOnly t => exact ⟨rfl, rfl⟩
  | selectRecord t t' k ht hk => exact ⟨rfl, rfl⟩

lemma kmReach_keys_rpm {keys : List Nat} {rpm : Nat} {s : KMState} :
    KMReach keys rpm s → s.keys = keys ∧ s.rpm = rpm := by
  intro h
  induction h with
  | init => exact ⟨rfl, rfl⟩
  | step _ hstep ih =>
    obtain ⟨h1, h2⟩ := kmStep_keys_rpm hstep
    exact ⟨h1.trans ih.1, h2.trans ih.2⟩

/-- Invariant of one timestamp ring: entries ascend with gaps of at least the
minimum interval `d`, and none is later than `last_request_times`. -/
def ringInv (d lastv : ℚ) (ring : List ℚ) : Prop :=
  ring.Pairwise (fun a b => a + d ≤ b) ∧ ∀ x ∈ ring, x ≤ lastv

/-- Invariant of the whole pool. -/
def kmInv (s : KMState) : Prop :=
  ∀ k, ringInv ((60 : ℚ) / (s.rpm : ℚ)) (s.lastOf k) (s.ringsOf k)

lemma kmInv_gak (s : KMState) (t : ℚ) (h : kmInv s) : kmInv (get_available_key s t).2 := by
  intro k
  have hsub : ((get_available_key s t).2.ringsOf k).Sublist (s.ringsOf k) := by
    rw [gak_state_rings]
    exact prunedAll_sublist s.rpm t s.keys s.ringsOf k
  exact ⟨(h k).1.sublist hsub, fun x hx => (h k).2 x (hsub.subset hx)⟩

lemma kmInv_record (s : KMState) (t t' : ℚ) (k : Nat)
    (hinv : kmInv s) (helig : (60 : ℚ) / (s.rpm : ℚ) ≤ t - s.lastOf k) (ht : t ≤ t') :
    kmInv (record_usage s k t') := by
  have hd : 0 ≤ (60 : ℚ) / (s.rpm : ℚ) := by positivity
  intro k'
  by_cases hk' : k' = k
  · subst hk'
    constructor
    · have hall : (s.ringsOf k' ++ [t']).Pairwise
          (fun a b => a + (60 : ℚ) / (s.rpm : ℚ) ≤ b) := by
        rw [List.pairwise_append]
        refine ⟨(hinv k').1, List.pairwise_singleton _ _, ?_⟩
        intro a ha b hb
        have hb' : b = t' := by simpa using hb
        have ha' : a ≤ s.lastOf k' := (hinv k').2 a ha
        subst hb'
        linarith
      have : ((record_usage s k' t').ringsOf k').Sublist (s.ringsOf k' ++ [t']) := by
        simp only [record_usage, Function.update_same]
        exact List.drop_sublist _ _
      exact hall.sublist this
    · intro x hx
      have hx' : x ∈ s.ringsOf k' ++ [t'] := by
        simp only [record_usage, Function.update_same] at hx
        exact List.mem_of_mem_drop hx
      have hlast : (record_usage s k' t').lastOf k' = t' := by
        simp [record_usage]
      rw [hlast]
      rcases List.mem_append.1 hx' with h1 | h1
      · have := (hinv k').2 x h1
        linarith
      · have : x = t' := by simpa using h1
        exact this.le
  · have h1 : (record_usage s k t').ringsOf k' = s.ringsOf k' := by
      simp [record_usage, Function.update_noteq hk']
    have h2 : (record_usage s k t').lastOf k' = s.lastOf k' := by
      simp [record_usage, Function.update_noteq hk']
    rw [ringInv, h1, h2]
    exact hinv k'

lemma kmStep_inv {s s' : KMState} (hstep : KMStep s s') (ih : kmInv s) : kmInv s' := by
  cases hstep with
  | selectOnly t => exact kmInv_gak s t ih
  | selectRecord t t' k ht hk =>
    refine kmInv_record _ t t' k (kmInv_gak s t ih) ?_ ht
    have := gakFold_elig s.rpm s.lastOf t s.keys s.ringsOf none (-1) k hk
    rcases this with h1 | h1
    · exact absurd h1 (by simp)
    · exact h1.2

lemma kmReach_inv {keys : List Nat} {rpm : Nat} {s : KMState} :
    KMReach keys rpm s → kmInv s := by
  intro h
  induction h with
  | init => intro k; exact ⟨List.Pairwise.nil, by intro x hx; simp [kmInit] at hx⟩
  | step hr hstep ih => exact kmStep_inv hstep ih

/-- Gap-chain spread: the head plus `length * d` is below the last element. -/
lemma gap_head_last (d : ℚ) :
    ∀ (l : List ℚ) (x : ℚ), (x :: l).Pairwise (fun a b => a + d ≤ b) →
      x + (l.length : ℚ) * d ≤ (x :: l).getLast (List.cons_ne_nil x l) := by
  intro l
  induction l with
  | nil => intro x _; simp
  | cons y l ih =>
    intro x hp
    have hxy : x + d ≤ y := (List.pairwise_cons.1 hp).1 y (List.mem_cons_self y l)
    have h2 := ih y (List.pairwise_cons.1 hp).2
    rw [List.getLast_cons (List.cons_ne_nil y l)]
    simp only [List.length_cons]
    push_cast
    push_cast at h2
    calc x + ((l.length : ℚ) + 1) * d = (x + d) + (l.length : ℚ) * d := by ring
      _ ≤ y + (l.length : ℚ) * d := by linarith
      _ ≤ _ := h2

/-- Counting bound: a ring satisfying the gap invariant whose entries all lie
in the window `(t - 60, last]`, with `t - last ≥ 60 / rpm`, has strictly
fewer than `rpm` entries. -/
lemma gap_count_lt (rpm : Nat) (t lastv : ℚ) (ring : List ℚ)
    (hrpm : 1 ≤ rpm)
    (hp : ring.Pairwise (fun a b => a + (60 : ℚ) / (rpm : ℚ) ≤ b))
    (hub : ∀ x ∈ ring, x ≤ lastv)
    (hlast : (60 : ℚ) / (rpm : ℚ) ≤ t - lastv)
    (hwin : ∀ x ∈ ring, t - 60 < x) :
    ring.length < rpm := by
  match ring with
  | [] => exact hrpm
  | x :: l =>
    have hrpmQ : (0 : ℚ) < (rpm : ℚ) := by exact_mod_cast hrpm
    have hd : 0 < (60 : ℚ) / (rpm : ℚ) := by positivity
    have hg := gap_head_last ((60 : ℚ) / (rpm : ℚ)) l x hp
    have hx : t - 60 < x := hwin x (List.mem_cons_self x l)
    have hlub : (x :: l).getLast (List.cons_ne_nil x l) ≤ lastv :=
      hub _ (List.getLast_mem (List.cons_ne_nil x l))
    have hrpmd : (rpm : ℚ) * ((60 : ℚ) / (rpm : ℚ)) = 60 := by
      field_simp
    have hlen : ((l.length : ℚ) + 1) * ((60 : ℚ) / (rpm : ℚ)) < 60 := by
      have : x + (l.length : ℚ) * ((60 : ℚ) / (rpm : ℚ)) ≤ lastv := le_trans hg hlub
      nlinarith
    have hq : ((l.length : ℚ) + 1) < (rpm : ℚ) := by
      by_contra hcon
      push_neg at hcon
      have := mul_le_mul_of_nonneg_right hcon hd.le
      rw [hrpmd] at this
      linarith
    have : l.length + 1 < rpm := by exact_mod_cast hq
    simpa using this

/-- RPM window bound (spec, section 3 credential-state invariant): whenever a
reachable pool state lets `get_available_key` return key `k` at time `t`, the
pruned ring of `k` holds strictly fewer than `rpm` entries, and after
`record_usage` appends the new timestamp at any time `t' ≥ t` the number of
entries of `k`'s ring within the last 60 seconds is at most `rpm`. -/
theorem c1_rpm_window_bound
    (keys : List Nat) (rpm : Nat) (s : KMState) (t t' : ℚ) (k : Nat)
    (hrpm : 1 ≤ rpm)
    (hreach : KMReach keys rpm s)
    (hsel : (get_available_key s t).1 = some k)
    (ht : t ≤ t') :
    ((get_available_key s t).2.ringsOf k).length < rpm ∧
    (((record_usage (get_available_key s t).2 k t').ringsOf k).filter
        (fun x => decide (t' - 60 < x))).length ≤ rpm := by
  obtain ⟨hkeys, hrpmeq⟩ := kmReach_keys_rpm hreach
  have hinv := kmReach_inv hreach
  have hselE := gakFold_elig s.rpm s.lastOf t s.keys s.ringsOf none (-1) k hsel
  rcases hselE with hbad | ⟨hkmem, helig⟩
  · exact absurd hbad (by simp)
  have hsub : ((get_available_key s t).2.ringsOf k).Sublist (s.ringsOf k) := by
    rw [gak_state_rings]
    exact prunedAll_sublist s.rpm t s.keys s.ringsOf k
  have hpair : ((get_available_key s t).2.ringsOf k).Pairwise
      (fun a b => a + (60 : ℚ) / (s.rpm : ℚ) ≤ b) := (hinv k).1.sublist hsub
  have hub : ∀ x ∈ (get_available_key s t).2.ringsOf k, x ≤ s.lastOf k :=
    fun x hx => (hinv k).2 x (hsub.subset hx)
  have hwin : ∀ x ∈ (get_available_key s t).2.ringsOf k, t - 60 < x := by
    rw [gak_state_rings]
    exact prunedAll_mem_window s.rpm t s.keys s.ringsOf k hkmem
  have hlen : ((get_available_key s t).2.ringsOf k).length < s.rpm :=
    gap_count_lt s.rpm t (s.lastOf k) _ (hrpmeq ▸ hrpm) hpair hub helig hwin
  constructor
  · rw [← hrpmeq]; exact hlen
  · have hnr : (record_usage (get_available_key s t).2 k t').ringsOf k
        = (((get_available_key s t).2.ringsOf k) ++ [t']).drop
            ((((get_available_key s t).2.ringsOf k) ++ [t']).length
              - 2 * (get_available_key s t).2.rpm) := by
      simp [record_usage, Function.update_same]
    rw [hnr]
    have hstep1 : (((((get_available_key s t).2.ringsOf k) ++ [t']).drop
            ((((get_available_key s t).2.ringsOf k) ++ [t']).length
              - 2 * (get_available_key s t).2.rpm)).filter
            (fun x => decide (t' - 60 < x))).length
        ≤ ((((get_available_key s t).2.ringsOf k ++ [t']).filter
            (fun x => decide (t' - 60 < x)))).length :=
      ((List.drop_sublist _ _).filter _).length_le
    simp only [List.filter_append, List.length_append, List.length_singleton] at hstep1 ⊢
    have h1 : (([t'] : List ℚ).filter (fun x => decide (t' - 60 < x))).length ≤ 1 :=
      le_trans (List.length_filter_le _ _) (by simp)
    have h2 := List.length_filter_le (fun x => decide (t' - 60 < x))
      ((get_available_key s t).2.ringsOf k)
    omega

/-- Witness for `c1_rpm_window_bound`: one key, `rpm_per_key = 1`, fresh pool,
selection and recording at time 100. -/
theorem c1_rpm_window_bound_witness :
    (get_available_key (kmInit [0] 1) 100).1 = some 0 ∧
    ((get_available_key (kmInit [0] 1) 100).2.ringsOf 0).length < 1 ∧
    (((record_usage (get_available_key (kmInit [0] 1) 100).2 0 100).ringsOf 0).filter
        (fun x => decide ((100 : ℚ) - 60 < x))).length ≤ 1 := by
  have hsel : (get_available_key (kmInit [0] 1) 100).1 = some 0 := by
    norm_num [get_available_key, gakStep, pruneRing, kmInit]
  have h := c1_rpm_window_bound [0] 1 (kmInit [0] 1) 100 100 0 le_rfl KMReach.init hsel le_rfl
  exact ⟨hsel, h.1, h.2⟩

/-! ### Full characterization of the selection loop (claim C6) -/

/-- Selection specification of the loop of `get_available_key`, for an
arbitrary starting accumulator: the running maximum only grows, it dominates
the capacity of every visited key that passes the interval guard, and the
elected key (if it changed) is a visited, guard-passing key of maximal
capacity that strictly beats every guard-passing key before it in list
order. -/
lemma gakFold_spec (R : Nat) (L : Nat → ℚ) (t : ℚ) :
    ∀ (ks : List Nat) (r : Nat → List ℚ) (b : Option Nat) (mc : Int),
      ks.Nodup →
      mc ≤ (ks.foldl (gakStep R L t) (b, mc, r)).2.1 ∧
      (∀ j ∈ ks, (60 : ℚ) / (R : ℚ) ≤ t - L j →
          (R : Int) - ((pruneRing R t (r j)).length : Int)
            ≤ (ks.foldl (gakStep R L t) (b, mc, r)).2.1) ∧
      (((ks.foldl (gakStep R L t) (b, mc, r)).1 = b ∧
          (ks.foldl (gakStep R L t) (b, mc, r)).2.1 = mc) ∨
        ∃ k l₁ l₂, (ks.foldl (gakStep R L t) (b, mc, r)).1 = some k ∧
          ks = l₁ ++ k :: l₂ ∧ ((60 : ℚ) / (R : ℚ) ≤ t - L k) ∧
          (ks.foldl (gakStep R L t) (b, mc, r)).2.1
            = (R : Int) - ((pruneRing R t (r k)).length : Int) ∧
          mc < (R : Int) - ((pruneRing R t (r k)).length : Int) ∧
          ∀ j ∈ l₁, ((60 : ℚ) / (R : ℚ) ≤ t - L j) →
            (R : Int) - ((pruneRing R t (r j)).length : Int)
              < (R : Int) - ((pruneRing R t (r k)).length : Int)) := by
  intro ks
  induction ks with
  | nil =>
    intro r b mc _
    exact ⟨le_refl mc, fun j hj => absurd hj (List.not_mem_nil j), Or.inl ⟨rfl, rfl⟩⟩
  | cons key rest ih =>
    intro r b mc hnd
    obtain ⟨hkeyni, hndrest⟩ := List.nodup_cons.1 hnd
    have hcaptr : ∀ j ∈ rest,
        pruneRing R t (Function.update r key (pruneRing R t (r key)) j) = pruneRing R t (r j) := by
      intro j hj
      rw [Function.update_noteq (by rintro rfl; exact hkeyni hj)]
    rw [List.foldl_cons]
    by_cases hc : mc < (R : Int) - ((pruneRing R t (r key)).length : Int) ∧
        (60 : ℚ) / (R : ℚ) ≤ t - L key
    · rw [show gakStep R L t (b, mc, r) key
          = (some key, (R : Int) - ((pruneRing R t (r key)).length : Int),
             Function.update r key (pruneRing R t (r key))) from by
        simp [gakStep, hc]]
      obtain ⟨ih1, ih2, ih3⟩ := ih (Function.update r key (pruneRing R t (r key)))
        (some key) ((R : Int) - ((pruneRing R t (r key)).length : Int)) hndrest
      refine ⟨le_trans hc.1.le ih1, ?_, ?_⟩
      · intro j hj helig
        rcases List.mem_cons.1 hj with rfl | hj'
        · exact ih1
        · have := ih2 j hj' helig
          rwa [hcaptr j hj'] at this
      · rcases ih3 with ⟨he1, he2⟩ | ⟨k, l₁, l₂, hF1, hsplit, heligk, hcap, hlt, hpre⟩
        · refine Or.inr ⟨key, [], rest, he1, by simp, hc.2, he2, hc.1, ?_⟩
          intro j hj
          exact absurd hj (List.not_mem_nil j)
        · have hkmem : k ∈ rest := hsplit ▸ List.mem_append_right l₁ (List.mem_cons_self k l₂)
          rw [hcaptr k hkmem] at hcap hlt
          refine Or.inr ⟨k, key :: l₁, l₂, hF1, by simp [hsplit], heligk, hcap, ?_, ?_⟩
          · exact lt_trans hc.1 hlt
          · intro j hj helig
            rcases List.mem_cons.1 hj with rfl | hj'
            · exact hlt
            · have hjrest : j ∈ rest := hsplit ▸ List.mem_append_left _ hj'
              have := hpre j hj' helig
              rwa [hcaptr j hjrest, hcaptr k hkmem] at this
    · rw [show gakStep R L t (b, mc, r) key
          = (b, mc, Function.update r key (pruneRing R t (r key))) from by
        simp [gakStep, if_neg hc]]
      obtain ⟨ih1, ih2, ih3⟩ := ih (Function.update r key (pruneRing R t (r key))) b mc hndrest
      have hkeycap : (60 : ℚ) / (R : ℚ) ≤ t - L key →
          (R : Int) - ((pruneRing R t (r key)).length : Int) ≤ mc := by
        intro helig
        by_contra hgt
        push_neg at hgt
        exact hc ⟨hgt, helig⟩
      refine ⟨ih1, ?_, ?_⟩
      · intro j hj helig
        rcases List.mem_cons.1 hj with rfl | hj'
        · exact le_trans (hkeycap helig) ih1
        · have := ih2 j hj' helig
          rwa [hcaptr j hj'] at this
      · rcases ih3 with he | ⟨k, l₁, l₂, hF1, hsplit, heligk, hcap, hlt, hpre⟩
        · exact Or.inl he
        · have hkmem : k ∈ rest := hsplit ▸ List.mem_append_right l₁ (List.mem_cons_self k l₂)
          rw [hcaptr k hkmem] at hcap hlt
          refine Or.inr ⟨k, key :: l₁, l₂, hF1, by simp [hsplit], heligk, hcap, hlt, ?_⟩
          intro j hj helig
          rcases List.mem_cons.1 hj with rfl | hj'
          · exact lt_of_le_of_lt (hkeycap helig) hlt
          · have hjrest : j ∈ rest := hsplit ▸ List.mem_append_left _ hj'
            have := hpre j hj' helig
            rwa [hcaptr j hjrest, hcaptr k hkmem] at this

/-- Selection rule actually implemented by `get_available_key` (claim C6,
amended): the returned key passed the interval guard, has capacity at least 0,
its capacity is maximal among all guard-passing keys, and every guard-passing
key strictly earlier in the key list has strictly smaller capacity — so ties
on capacity go to the earlier (lower-id) key, and idle time is not used. -/
theorem c6_selection_characterization (s : KMState) (t : ℚ) (k : Nat)
    (hnd : s.keys.Nodup)
    (hsel : (get_available_key s t).1 = some k) :
    k ∈ s.keys ∧ intervalOkAt s t k ∧ 0 ≤ capAt s t k ∧
    (∀ j ∈ s.keys, intervalOkAt s t j → capAt s t j ≤ capAt s t k) ∧
    ∃ l₁ l₂, s.keys = l₁ ++ k :: l₂ ∧
      ∀ j ∈ l₁, intervalOkAt s t j → capAt s t j < capAt s t k := by
  obtain ⟨h1, h2, h3⟩ := gakFold_spec s.rpm s.lastOf t s.keys s.ringsOf none (-1) hnd
  have hsel' : (s.keys.foldl (gakStep s.rpm s.lastOf t) (none, -1, s.ringsOf)).1 = some k := hsel
  rcases h3 with ⟨hb, _⟩ | ⟨k', l₁, l₂, hF1, hsplit, heligk, hcap, hlt, hpre⟩
  · rw [hsel'] at hb; exact absurd hb (by simp)
  · have hk' : k' = k := by
      rw [hsel'] at hF1
      injection hF1.symm
    rw [hk'] at hsplit heligk hcap hlt hpre
    refine ⟨hsplit ▸ List.mem_append_right l₁ (List.mem_cons_self k l₂), heligk, ?_, ?_, l₁, l₂, hsplit, ?_⟩
    · show (0 : Int) ≤ capAt s t k
      have : (-1 : Int) < capAt s t k := hlt
      omega
    · intro j hj helig
      have := h2 j hj helig
      rwa [hcap] at this
    · exact hpre

/-- State exhibiting the tie: both keys eligible with equal capacity 14, key 1
idle for 50 seconds, key 0 idle for only 30. -/
def c6State : KMState :=
  { keys := [0, 1], rpm := 15,
    ringsOf := fun j => if j = 0 then [70] else [50],
    lastOf := fun j => if j = 0 then 70 else 50 }

/-- Counterexample to claim C6 as stated: at `c6State` both keys are eligible
with the same available capacity and key 1 has the larger idle time, so the
claimed tie-break would return key 1; `get_available_key` returns key 0. -/
theorem c6_counterexample :
    (get_available_key c6State 100).1 = some 0 ∧
    (get_available_key c6State 100).1 ≠ some 1 ∧
    capAt c6State 100 0 = capAt c6State 100 1 ∧
    intervalOkAt c6State 100 0 ∧ intervalOkAt c6State 100 1 ∧
    100 - c6State.lastOf 0 < 100 - c6State.lastOf 1 := by
  refine ⟨?_, ?_, ?_, ?_, ?_, ?_⟩ <;>
    norm_num [get_available_key, gakStep, pruneRing, capAt, intervalOkAt, c6State]

/-- Witness for `c6_selection_characterization` at the concrete state
`c6State`. -/
theorem c6_selection_characterization_witness :
    c6State.keys.Nodup ∧ (get_available_key c6State 100).1 = some 0 ∧
    (0 ∈ c6State.keys ∧ intervalOkAt c6State 100 0 ∧ 0 ≤ capAt c6State 100 0 ∧
      (∀ j ∈ c6State.keys, intervalOkAt c6State 100 j →
          capAt c6State 100 j ≤ capAt c6State 100 0) ∧
      ∃ l₁ l₂, c6State.keys = l₁ ++ 0 :: l₂ ∧
        ∀ j ∈ l₁, intervalOkAt c6State 100 j → capAt c6State 100 j < capAt c6State 100 0) := by
  have hnd : c6State.keys.Nodup := by
    simp [c6State]
  have hsel : (get_available_key c6State 100).1 = some 0 := by
    norm_num [get_available_key, gakStep, pruneRing, c6State]
  exact ⟨hnd, hsel, c6_selection_characterization c6State 100 0 hnd hsel⟩

/-! ## Request records and the priority queue (queue_manager.py lines 13-30) -/

/-- `QueueItem` (lines 13-24).  `args` (an opaque dict forwarded verbatim to
the upstream adapter) is omitted; `result` is the opaque upstream result value,
modelled as a number; `status` keeps the source's string encoding; Google API
keys are pool indices. -/
structure QueueItem where
  id : String
  api_key : String
  timestamp : ℚ
  priority : Int
  model : String
  operation : String
  result : Option Nat
  error : Option String
  status : String
  google_api_key : Option Nat
deriving DecidableEq

/-- `QueueItem.__lt__` (lines 26-30): compare priorities when they differ,
otherwise enqueue timestamps. -/
def qlt (a b : QueueItem) : Bool :=
  if a.priority ≠ b.priority then decide (a.priority < b.priority)
  else decide (a.timestamp < b.timestamp)

/-- Propositional version of `qlt`. -/
def qltP (a b : QueueItem) : Prop :=
  a.priority < b.priority ∨ (a.priority = b.priority ∧ a.timestamp < b.timestamp)

lemma qlt_iff (a b : QueueItem) : qlt a b = true ↔ qltP a b := by
  by_cases h : a.priority = b.priority
  · simp [qlt, qltP, h]
  · simp [qlt, qltP, h]

/-- `PriorityQueue.get` pops an element that is minimal with respect to
`__lt__` (the heap root).  The queue contents are modelled as the list of
entries; `popMin` returns the minimal entry, keeping the earlier one when
neither compares below the other. -/
def popMin (q : List QueueItem) : Option QueueItem :=
  match q with
  | [] => none
  | x :: xs => some (xs.foldl (fun m b => if qlt b m then b else m) x)


lemma qltP_trans {a b c : QueueItem} (h1 : qltP a b) (h2 : qltP b c) : qltP a c := by
  rcases h1 with h1 | ⟨h1, h1'⟩ <;> rcases h2 with h2 | ⟨h2, h2'⟩
  · exact Or.inl (lt_trans h1 h2)
  · exact Or.inl (h2 ▸ h1)
  · exact Or.inl (h1 ▸ h2)
  · exact Or.inr ⟨h1.trans h2, lt_trans h1' h2'⟩

lemma qltP_irrefl (a : QueueItem) : ¬ qltP a a := by
  rintro (h | ⟨_, h⟩) <;> exact absurd h (lt_irrefl _)

lemma qltP_total (a b : QueueItem) :
    qltP a b ∨ qltP b a ∨ (a.priority = b.priority ∧ a.timestamp = b.timestamp) := by
  rcases lt_trichotomy a.priority b.priority with h | h | h
  · exact Or.inl (Or.inl h)
  · rcases lt_trichotomy a.timestamp b.timestamp with h' | h' | h'
    · exact Or.inl (Or.inr ⟨h, h'⟩)
    · exact Or.inr (Or.inr ⟨h, h'⟩)
    · exact Or.inr (Or.inl (Or.inr ⟨h.symm, h'⟩))
  · exact Or.inr (Or.inl (Or.inl h))

lemma qltP_congr_right {y m x : QueueItem}
    (hp : m.priority = x.priority) (ht : m.timestamp = x.timestamp) :
    qltP y m → qltP y x := by
  rintro (h | ⟨h, h'⟩)
  · exact Or.inl (hp ▸ h)
  · exact Or.inr ⟨h.trans hp, ht ▸ h'⟩

lemma qltP_congr_left {y a m : QueueItem}
    (hp : y.priority = a.priority) (ht : y.timestamp = a.timestamp) :
    qltP y m → qltP a m := by
  rintro (h | ⟨h, h'⟩)
  · exact Or.inl (hp ▸ h)
  · exact Or.inr ⟨hp ▸ h, ht ▸ h'⟩

/-- Whoever does not strictly beat `a` cannot strictly beat anything that `a`
does not strictly beat: the carrier of minimality through the fold. -/
lemma qltP_no_beat {y a m : QueueItem}
    (hya : ¬ qltP y a) (ham : ¬ qltP a m) (hym : qltP y m) : False := by
  rcases qltP_total y a with h | h | ⟨hp, ht⟩
  · exact hya h
  · exact ham (qltP_trans h hym)
  · exact ham (qltP_congr_left hp ht hym)

/-- The fold of `popMin` returns an element of its input that no element of
the input strictly precedes in the `__lt__` order. -/
lemma popMin_fold_spec :
    ∀ (xs : List QueueItem) (x : QueueItem),
      (xs.foldl (fun m b => if qlt b m then b else m) x = x ∨
        xs.foldl (fun m b => if qlt b m then b else m) x ∈ xs) ∧
      ∀ y, (y = x ∨ y ∈ xs) → ¬ qltP y (xs.foldl (fun m b => if qlt b m then b else m) x) := by
  intro xs
  induction xs with
  | nil =>
    intro x
    refine ⟨Or.inl rfl, ?_⟩
    rintro y (rfl | hy)
    · exact qltP_irrefl y
    · exact absurd hy (List.not_mem_nil y)
  | cons b xs ih =>
    intro x
    rw [List.foldl_cons]
    by_cases hb : qlt b x
    · rw [if_pos hb]
      obtain ⟨ihmem, ihmin⟩ := ih b
      have hbx : qltP b x := (qlt_iff b x).1 hb
      refine ⟨?_, ?_⟩
      · rcases ihmem with h | h
        · exact Or.inr (by rw [h]; exact List.mem_cons_self b xs)
        · exact Or.inr (List.mem_cons_of_mem b h)
      · rintro y (rfl | hy) hlt
        · exact qltP_no_beat (fun hc => qltP_irrefl y (qltP_trans hc hbx))
            (ihmin b (Or.inl rfl)) hlt
        · rcases List.mem_cons.1 hy with rfl | hy'
          · exact ihmin y (Or.inl rfl) hlt
          · exact ihmin y (Or.inr hy') hlt
    · rw [if_neg hb]
      obtain ⟨ihmem, ihmin⟩ := ih x
      have hbx : ¬ qltP b x := fun hc => hb ((qlt_iff b x).2 hc)
      refine ⟨?_, ?_⟩
      · rcases ihmem with h | h
        · exact Or.inl h
        · exact Or.inr (List.mem_cons_of_mem b h)
      · rintro y (rfl | hy) hlt
        · exact ihmin y (Or.inl rfl) hlt
        · rcases List.mem_cons.1 hy with rfl | hy'
          · exact qltP_no_beat hbx (ihmin x (Or.inl rfl)) hlt
          · exact ihmin y (Or.inr hy') hlt

/-- FIFO within a priority level (claim C7): while a request `r1` with the
same priority as `r2` but a strictly earlier enqueue timestamp is still in the
queue, the pop of `PriorityQueue.get` never returns `r2`; since the dispatcher
marks the popped item PROCESSING immediately after the pop
(queue_manager.py lines 271-282), `r1` enters PROCESSING no later than `r2`. -/
theorem c7_fifo_within_priority (q : List QueueItem) (r1 r2 : QueueItem)
    (h1 : r1 ∈ q) (hp : r1.priority = r2.priority) (ht : r1.timestamp < r2.timestamp) :
    popMin q ≠ some r2 := by
  match q with
  | [] => exact absurd h1 (List.not_mem_nil r1)
  | x :: xs =>
    intro hpop
    have hm : xs.foldl (fun m b => if qlt b m then b else m) x = r2 := by
      injection hpop
    obtain ⟨_, hmin⟩ := popMin_fold_spec xs x
    have h1' : r1 = x ∨ r1 ∈ xs := List.mem_cons.1 h1
    have := hmin r1 h1'
    rw [hm] at this
    exact this (Or.inr ⟨hp, ht⟩)

/-- Enqueued request record as built by `enqueue_request`
(queue_manager.py lines 158-170). -/
def enqueuedItem (rid : String) (t : ℚ) : QueueItem :=
  { id := rid, api_key := "client", timestamp := t, priority := 1, model := "m",
    operation := "generate_content", result := none, error := none, status := "pending",
    google_api_key := none }

/-- Witness for `c7_fifo_within_priority`: two equal-priority items, the later
one (timestamp 5) ahead of the earlier one (timestamp 0) in the backing list;
the pop still does not return the later one. -/
theorem c7_fifo_within_priority_witness :
    enqueuedItem "a" 0 ∈ [enqueuedItem "b" 5, enqueuedItem "a" 0] ∧
    (enqueuedItem "a" 0).priority = (enqueuedItem "b" 5).priority ∧
    (enqueuedItem "a" 0).timestamp < (enqueuedItem "b" 5).timestamp ∧
    popMin [enqueuedItem "b" 5, enqueuedItem "a" 0] ≠ some (enqueuedItem "b" 5) := by
  refine ⟨List.mem_cons_of_mem _ (List.mem_cons_self _ _), rfl, by norm_num [enqueuedItem], ?_⟩
  exact c7_fifo_within_priority _ _ _
    (List.mem_cons_of_mem _ (List.mem_cons_self _ _)) rfl (by norm_num [enqueuedItem])

/-! ## TTL garbage collection: `clean_old_results` (queue_manager.py 199-213) -/

/-- `clean_old_results`: drop the entries whose status is `completed` or
`failed` and whose age, measured from the record's `timestamp` field (set at
enqueue and never updated), exceeds `max_age_seconds`.  The results dict is
modelled as an association list. -/
def clean_old_results (now maxAge : ℚ) (results : List (String × QueueItem)) :
    List (String × QueueItem) :=
  results.filter (fun p =>
    !((p.2.status == "completed" || p.2.status == "failed")
      && decide (maxAge < now - p.2.timestamp)))

/-- Worker success path of `_execute_request` (lines 322-325): set the result
and flip the status to `completed`; the `timestamp` field is not touched, so
the record keeps its enqueue time. -/
def completeItem (item : QueueItem) (v : Nat) : QueueItem :=
  { item with result := some v, status := "completed" }

/-- Counterexample to claim C5 as stated: a record enqueued at time 0 whose
terminal transition (`completeItem`, the worker's status write) happens at
wall time 4000 is removed by `clean_old_results` running at time 4001 with the
default `max_age = 3600`, although `now - terminal_at = 1 ≤ 3600` — the code
measures age from the enqueue timestamp, and no terminal-transition time is
ever stored. -/
theorem c5_counterexample :
    (completeItem (enqueuedItem "r1" 0) 7).status = "completed" ∧
    (4001 : ℚ) - 4000 ≤ 3600 ∧
    clean_old_results 4001 3600 [("r1", completeItem (enqueuedItem "r1" 0) 7)] = [] := by
  refine ⟨rfl, by norm_num, ?_⟩
  norm_num [clean_old_results, completeItem, enqueuedItem]

/-- TTL GC rule actually implemented (claim C5, amended): an entry survives
`clean_old_results` exactly when it is not the case that its status is
terminal (`completed` or `failed`) and `now` minus its enqueue timestamp
exceeds `max_age`; in particular entries with status `pending` or
`processing` are never removed. -/
theorem c5_gc_membership (now maxAge : ℚ) (l : List (String × QueueItem))
    (p : String × QueueItem) :
    p ∈ clean_old_results now maxAge l ↔
      p ∈ l ∧ ¬((p.2.status = "completed" ∨ p.2.status = "failed")
        ∧ maxAge < now - p.2.timestamp) := by
  simp only [clean_old_results, List.mem_filter, Bool.not_eq_true', Bool.and_eq_false_iff,
    Bool.or_eq_false_iff, beq_eq_false_iff_ne, decide_eq_false_iff_not]
  constructor
  · rintro ⟨hmem, h⟩
    refine ⟨hmem, ?_⟩
    rintro ⟨hst, hage⟩
    rcases h with ⟨h1, h2⟩ | h1
    · rcases hst with hst | hst
      · exact h1 hst
      · exact h2 hst
    · exact h1 hage
  · rintro ⟨hmem, h⟩
    refine ⟨hmem, ?_⟩
    by_cases hage : maxAge < now - p.2.timestamp
    · left
      constructor
      · intro hst; exact h ⟨Or.inl hst, hage⟩
      · intro hst; exact h ⟨Or.inr hst, hage⟩
    · exact Or.inr hage

/-! ## Status polling: `get_request_status` and the HTTP endpoint -/

/-- The dictionary view returned by `QueueManager.get_request_status`
(queue_manager.py lines 184-197). -/
structure StatusView where
  id : String
  status : String
  result : Option Nat
  error : Option String
  timestamp : ℚ
  google_api_key : Option Nat
deriving DecidableEq

/-- `get_request_status`: look the id up in the results dict under the lock;
return the view when present, `None` otherwise. -/
def get_request_status (results : List (String × QueueItem)) (rid : String) :
    Option StatusView :=
  match results.lookup rid with
  | some item => some { id := item.id, status := item.status, result := item.result,
                        error := item.error, timestamp := item.timestamp,
                        google_api_key := item.google_api_key }
  | none => none

/-- Responses of the `/status/{request_id}` endpoint
(routers/generate.py lines 181-226), payload shapes abstracted. -/
inductive HttpResponse where
  | httpError (code : Nat) (detail : String)
  | completedBody (result : Option Nat)
  | failedBody (error : Option String)
  | statusBody (status : String) (timestamp : ℚ)
deriving DecidableEq

/-- The endpoint: 404 when the engine returns no record, otherwise a body
selected by the record's status. -/
def statusEndpoint (results : List (String × QueueItem)) (rid : String) : HttpResponse :=
  match get_request_status results rid with
  | none => .httpError 404 "Request not found"
  | some st =>
    if st.status = "completed" then .completedBody st.result
    else if st.status = "failed" then .failedBody st.error
    else .statusBody st.status st.timestamp

lemma lookup_eq_none_of_notMem (results : List (String × QueueItem)) (rid : String)
    (h : rid ∉ results.map Prod.fst) : results.lookup rid = none := by
  induction results with
  | nil => rfl
  | cons p l ih =>
    have hne : rid ≠ p.1 := by
      intro hc
      exact h (by rw [hc]; exact List.mem_map_of_mem Prod.fst (List.mem_cons_self p l))
    have : (rid == p.1) = false := beq_eq_false_iff_ne.2 hne
    simp only [List.lookup, this]
    exact ih (fun hc => h (List.mem_cons_of_mem _ (by simpa using hc)))

/-- Missing-id polling (claim C9): for an id absent from the results store,
`get_request_status` returns `None` (no exception: the dict is only indexed
under the membership guard), and the HTTP endpoint maps this to a 404
"Request not found" response that carries no record fields. -/
theorem c9_missing_id_not_found (results : List (String × QueueItem)) (rid : String)
    (h : rid ∉ results.map Prod.fst) :
    get_request_status results rid = none ∧
    statusEndpoint results rid = .httpError 404 "Request not found" := by
  have hl := lookup_eq_none_of_notMem results rid h
  constructor
  · rw [get_request_status, hl]
  · rw [statusEndpoint, get_request_status, hl]

/-- Witness for `c9_missing_id_not_found`: a one-entry store and a fresh id. -/
theorem c9_missing_id_not_found_witness :
    "missing" ∉ ([("r1", enqueuedItem "r1" 0)].map Prod.fst) ∧
    get_request_status [("r1", enqueuedItem "r1" 0)] "missing" = none ∧
    statusEndpoint [("r1", enqueuedItem "r1" 0)] "missing"
      = .httpError 404 "Request not found" := by
  have h : "missing" ∉ ([("r1", enqueuedItem "r1" 0)].map Prod.fst) := by
    simp
  have := c9_missing_id_not_found [("r1", enqueuedItem "r1" 0)] "missing" h
  exact ⟨h, this.1, this.2⟩

/-! ## Upstream client retry machine: `GeminiClient` (gemini_client.py) -/

/-- Classification of the exception a single upstream invocation can raise,
as observed by `execute_with_retry`:
* `server`: `google_exceptions.InternalServerError` / `ServiceUnavailable`
  (the `isinstance` test of line 142);
* `quota`: an exception whose message contains one of the quota phrases
  ("quota exceeded", "rate limit", "resource exhausted", "too many requests",
  "resource has been exhausted") of lines 159-162;
* `nullValue`: the `ValueError("Received None response from Gemini API")`
  raised at line 131 — its message contains no quota phrase;
* `other`: any other exception (no server `isinstance`, no quota phrase). -/
inductive GErr where
  | server
  | quota
  | nullValue
  | other
deriving DecidableEq

/-- The `isinstance(e, server_error_types)` test of line 142. -/
def isServerType : GErr → Bool
  | .server => true
  | _ => false

/-- The quota-phrase membership test of lines 159-162 and 183-186. -/
def hasQuotaTerm : GErr → Bool
  | .quota => true
  | _ => false

/-- Outcome of one upstream invocation, supplied by an oracle standing for
`operation_to_execute(*args, **kwargs)` (line 126). -/
inductive GOutcome where
  | ok (v : Nat)
  | nullResp
  | raiseErr (e : GErr)
deriving DecidableEq

/-- Result of `execute_with_retry`: a returned value or a propagated
exception. -/
inductive RunResult where
  | ok (v : Nat)
  | raised (e : GErr)
deriving DecidableEq

/-- State of `GeminiClient` (fields of `__init__`, lines 30-42).  All
per-index sub-clients are assumed to have initialized successfully, so
`_get_current_client` is the identity on `current_key_index`.  `callLog`
(indices used by successive invocations) and `sleptSeconds` (total
`time.sleep` backoff) are ghost fields recording observable behaviour. -/
structure GCState where
  numKeys : Nat
  current_key_index : Nat
  max_retries : Nat
  server_error_retries : Nat
  quota_error_retries : Nat
  total_api_calls : Nat
  successful_api_calls : Nat
  callLog : List Nat
  sleptSeconds : ℚ
deriving DecidableEq

/-- Fresh client over `n` credentials (defaults of `__init__`). -/
def mkGC (n : Nat) : GCState :=
  { numKeys := n, current_key_index := 0, max_retries := 2,
    server_error_retries := 0, quota_error_retries := 0,
    total_api_calls := 0, successful_api_calls := 0,
    callLog := [], sleptSeconds := 0 }

/-- `_rotate_key` (lines 100-102). -/
def rotate_key (s : GCState) : GCState :=
  { s with current_key_index := (s.current_key_index + 1) % s.numKeys }

/-- `set_api_key` (lines 292-303) with credentials addressed by index. -/
def set_api_key (s : GCState) (k : Nat) : GCState :=
  { s with current_key_index := k }

/-- One invocation (line 125-126): count the attempt, log the index used, ask
the oracle (indexed by the pre-call `total_api_calls` counter and the current
key index). -/
def runAttempt (oracle : Nat → Nat → GOutcome) (s : GCState) : GOutcome × GCState :=
  (oracle s.total_api_calls s.current_key_index,
   { s with total_api_calls := s.total_api_calls + 1,
            callLog := s.callLog ++ [s.current_key_index] })

/-- How the inner attempt loop of `execute_with_retry` terminates. -/
inductive InnerExit where
  | success (v : Nat)
  | raiseE (e : GErr)
  | quotaBreak (e : GErr) (attemptIdx : Nat)
deriving DecidableEq

/-- Error handling after the second attempt (attempt = 1, lines 136-172):
a server error re-raises (line 156); a quota-phrase error breaks to the
rotation logic; anything else re-raises (line 172). -/
def innerHandle1 (e2 : GErr) (s3 : GCState) : InnerExit × GCState :=
  if isServerType e2 then (.raiseE e2, s3)
  else if hasQuotaTerm e2 then
    (.quotaBreak e2 1, { s3 with quota_error_retries := s3.quota_error_retries + 1 })
  else (.raiseE e2, s3)

/-- Error handling after the first attempt (attempt = 0): a server error
sleeps 3 s and retries once on the same key (lines 147-151); a quota-phrase
error breaks to the rotation logic (line 168); anything else re-raises
(line 172).  A `None` result raises `ValueError` (line 131), handled like any
other exception. -/
def innerHandle0 (oracle : Nat → Nat → GOutcome) (e : GErr) (s1 : GCState) :
    InnerExit × GCState :=
  if isServerType e then
    let s2 := { s1 with server_error_retries := s1.server_error_retries + 1,
                        sleptSeconds := s1.sleptSeconds + 3 }
    match runAttempt oracle s2 with
    | (.ok v, s3) =>
      (.success v, { s3 with successful_api_calls := s3.successful_api_calls + 1 })
    | (.nullResp, s3) => innerHandle1 .nullValue s3
    | (.raiseErr e2, s3) => innerHandle1 e2 s3
  else if hasQuotaTerm e then
    (.quotaBreak e 0, { s1 with quota_error_retries := s1.quota_error_retries + 1 })
  else (.raiseE e, s1)

/-- The inner `for attempt in range(2)` loop of `execute_with_retry`
(lines 123-172). -/
def innerTwo (oracle : Nat → Nat → GOutcome) (s : GCState) : InnerExit × GCState :=
  match runAttempt oracle s with
  | (.ok v, s1) =>
    (.success v, { s1 with successful_api_calls := s1.successful_api_calls + 1 })
  | (.nullResp, s1) => innerHandle0 oracle .nullValue s1
  | (.raiseErr e, s1) => innerHandle0 oracle e s1

/-- The outer `while retries <= max_retries` loop (lines 115-210).  Reaching
the code after the inner loop requires the quota `break`; there the rotation
test (lines 193-201) fires for a quota-phrase error or for a persistent server
error (`attempt == 1`; dead in practice because that path re-raises), rotating
while `retries < max_retries` and otherwise re-raising the last error.  `fuel`
is `max_retries + 1 - retries`; the fuel-0 sentinel is the unreachable
line 210 `raise last_error`. -/
def ewrLoop (oracle : Nat → Nat → GOutcome) :
    Nat → Nat → Option GErr → GCState → RunResult × GCState
  | 0, _, lastErr, s => (.raised (lastErr.getD .nullValue), s)
  | fuel + 1, retries, _, s =>
    match innerTwo oracle s with
    | (.success v, s1) => (.ok v, s1)
    | (.raiseE e, s1) => (.raised e, s1)
    | (.quotaBreak e a, s1) =>
      if hasQuotaTerm e || (isServerType e && decide (a = 1)) then
        if retries < s1.max_retries then
          ewrLoop oracle fuel (retries + 1) (some e) (rotate_key s1)
        else (.raised e, s1)
      else (.raised e, s1)

/-- `execute_with_retry` (lines 105-210), driven by an invocation oracle. -/
def execute_with_retry (oracle : Nat → Nat → GOutcome) (s : GCState) :
    RunResult × GCState :=
  ewrLoop oracle (s.max_retries + 1) 0 none s

/-! ### Claim scenarios for the retry machine -/

/-- Oracle for claim C3: every invocation fails with a transient server
error. -/
def c3Oracle : Nat → Nat → GOutcome := fun _ _ => .raiseErr .server

/-- Claim C3 at its failing input (two usable credentials, upstream always
returns a 5xx-class error): the run sleeps the 3-second backoff once and
retries on the same credential, but when the retry also fails the `raise` of
gemini_client.py line 156 propagates out of `execute_with_retry` — there is no
enclosing try — so the call raises after exactly two invocations, both on
credential 0, with zero rotations; the rotation logic of lines 188-201 (and
its `is_persistent_server_error` test) is never reached. -/
theorem c3_transient_error_never_rotates :
    (execute_with_retry c3Oracle (mkGC 2)).1 = .raised .server ∧
    (execute_with_retry c3Oracle (mkGC 2)).2.total_api_calls = 2 ∧
    (execute_with_retry c3Oracle (mkGC 2)).2.callLog = [0, 0] ∧
    (execute_with_retry c3Oracle (mkGC 2)).2.current_key_index = 0 ∧
    (execute_with_retry c3Oracle (mkGC 2)).2.server_error_retries = 1 ∧
    (execute_with_retry c3Oracle (mkGC 2)).2.sleptSeconds = 3 := by
  refine ⟨?_, ?_, ?_, ?_, ?_, ?_⟩ <;>
    norm_num [execute_with_retry, ewrLoop, innerTwo, innerHandle0, innerHandle1, runAttempt,
      rotate_key, mkGC, c3Oracle, isServerType, hasQuotaTerm]

/-- Oracle for claim C4: the upstream returns a null result. -/
def c4Oracle : Nat → Nat → GOutcome := fun _ _ => .nullResp

/-- Counterexample to claim C4 as stated: with a null upstream response the
run raises after a single invocation — the `ValueError` of line 131 matches
neither the server-error types nor the quota phrases, so line 172 re-raises it
with no retry on the same (or any) credential. -/
theorem c4_counterexample :
    (execute_with_retry c4Oracle (mkGC 1)).1 = .raised .nullValue ∧
    (execute_with_retry c4Oracle (mkGC 1)).2.total_api_calls = 1 ∧
    (execute_with_retry c4Oracle (mkGC 1)).2.callLog = [0] := by
  refine ⟨?_, ?_, ?_⟩ <;>
    norm_num [execute_with_retry, ewrLoop, innerTwo, innerHandle0, innerHandle1, runAttempt,
      mkGC, c4Oracle, isServerType, hasQuotaTerm]

/-- Null-response handling actually implemented (claim C4, amended): whenever
the next invocation returns a null result, `execute_with_retry` classifies the
resulting `ValueError` as non-retriable and raises it immediately: exactly one
more invocation happens and the state changes only by that attempt's
accounting. -/
theorem c4_null_response_fatal (oracle : Nat → Nat → GOutcome) (s : GCState)
    (h : oracle s.total_api_calls s.current_key_index = .nullResp) :
    execute_with_retry oracle s =
      (.raised .nullValue,
       { s with total_api_calls := s.total_api_calls + 1,
                callLog := s.callLog ++ [s.current_key_index] }) := by
  simp [execute_with_retry, ewrLoop, innerTwo, innerHandle0, runAttempt, h,
    isServerType, hasQuotaTerm]

/-- Witness for `c4_null_response_fatal` at a fresh one-credential client. -/
theorem c4_null_response_fatal_witness :
    c4Oracle (mkGC 1).total_api_calls (mkGC 1).current_key_index = .nullResp ∧
    execute_with_retry c4Oracle (mkGC 1) =
      (.raised .nullValue,
       { mkGC 1 with total_api_calls := (mkGC 1).total_api_calls + 1,
                     callLog := (mkGC 1).callLog ++ [(mkGC 1).current_key_index] }) :=
  ⟨rfl, c4_null_response_fatal c4Oracle (mkGC 1) rfl⟩

/-! ### Claim C2: quota on credential 0, success on credential 1 -/

/-- Oracle for claim C2: invocations under credential 0 fail with a
quota/rate-limit error; invocations under credential 1 succeed. -/
def c2Oracle : Nat → Nat → GOutcome := fun _ idx => if idx = 0 then .raiseErr .quota else .ok 42

/-- The dispatcher's record update on dispatch (queue_manager.py lines
279-282): mark PROCESSING and stamp the Google API key chosen by the pool. -/
def dispatchMark (item : QueueItem) (k : Nat) : QueueItem :=
  { item with status := "processing", google_api_key := some k }

/-- `_execute_request` (lines 311-343): point the shared client at the
assigned key, run the operation through `execute_with_retry`, then write the
terminal status (`completed` with the result, or `failed` with the error
message). -/
def execute_request (oracle : Nat → Nat → GOutcome) (item : QueueItem) (gc : GCState) (k : Nat) :
    QueueItem × GCState :=
  let gc1 := set_api_key gc k
  match execute_with_retry oracle gc1 with
  | (.ok v, gc2) => ({ item with result := some v, status := "completed" }, gc2)
  | (.raised _, gc2) => ({ item with error := some "upstream error", status := "failed" }, gc2)

/-- One full dispatch of a single enqueued request through a fresh two-key
pool at time 100 (`_process_queue` lines 264-299 followed by the worker):
select a key, record its use, mark the record, execute with the C2 oracle. -/
def runC2 : Option (QueueItem × KMState × GCState) :=
  match (get_available_key (kmInit [0, 1] 15) 100).1 with
  | none => none
  | some k =>
    let km2 := record_usage (get_available_key (kmInit [0, 1] 15) 100).2 k 100
    let p := execute_request c2Oracle (dispatchMark (enqueuedItem "req" 0) k) (mkGC 2) k
    some (p.1, km2, p.2)

/-- Counterexample to claim C2 as stated: the request completes, but the
recorded assigned credential is credential 0 (the pool's choice; the client's
internal rotation to credential 1 is never written back to the record), and
the pool's accounting shows one use on credential 0 and none on credential 1
(`record_usage` is called once per dispatch, not per invocation). -/
theorem c2_counterexample :
    runC2.map (fun r => (r.1.status, r.1.google_api_key,
        ((r.2.1).ringsOf 1).length)) = some ("completed", some 0, 0) ∧
    runC2.map (fun r => r.1.google_api_key) ≠ some (some 1) ∧
    runC2.map (fun r => ((r.2.1).ringsOf 1).length) ≠ some 1 := by
  refine ⟨?_, ?_, ?_⟩ <;>
    norm_num [runC2, execute_request, dispatchMark, set_api_key, enqueuedItem, mkGC, c2Oracle,
      execute_with_retry, ewrLoop, innerTwo, innerHandle0, innerHandle1, runAttempt, rotate_key,
      isServerType, hasQuotaTerm, get_available_key, gakStep, pruneRing, kmInit, record_usage]

/-- Behaviour actually implemented in the C2 scenario (claim C2, amended):
the request reaches COMPLETED with result 42 after two upstream invocations
(key indices 0 then 1), but the record's assigned credential stays credential
0 and the pool shows exactly one recorded use, on credential 0 — none on
credential 1. -/
theorem c2_quota_rotation_accounting :
    runC2.map (fun r => (r.1.status, r.1.google_api_key,
        ((r.2.1).ringsOf 0).length, ((r.2.1).ringsOf 1).length,
        r.2.2.total_api_calls, r.2.2.callLog, r.1.result))
      = some ("completed", some 0, 1, 0, 2, [0, 1], some 42) := by
  norm_num [runC2, execute_request, dispatchMark, set_api_key, enqueuedItem, mkGC, c2Oracle,
    execute_with_retry, ewrLoop, innerTwo, innerHandle0, innerHandle1, runAttempt, rotate_key,
    isServerType, hasQuotaTerm, get_available_key, gakStep, pruneRing, kmInit, record_usage]

/-! ## Concurrency accounting of the dispatcher (claims C8, C10)

`_process_queue` runs on a single dispatcher thread: per tick it checks
`active_requests < max_concurrent` under `active_lock`
(`_can_start_new_request`, lines 238-241), may abandon the tick (empty queue,
no key, failed pop), marks the popped record `processing` (lines 279-282),
increments `active_requests` (lines 288-289) and starts the worker thread.
Each worker writes its terminal status (lines 322-338) and decrements
`active_requests` in its `finally` block (lines 340-343).  `DStep` is the
interleaving of these atomic sections; `running` counts workers whose record
is still `processing`, `done` counts workers that wrote a terminal status but
have not yet run the `finally` decrement. -/

/-- Position of the dispatcher thread inside one tick. -/
inductive DPhase where
  | idle
  | checked
  | marked
deriving DecidableEq

/-- Joint state of the `active_requests` counter, the worker population and
the dispatcher position. -/
structure DState where
  active : Int
  running : Nat
  done : Nat
  phase : DPhase
deriving DecidableEq

/-- Startup state: no workers, counter 0. -/
def dInit : DState := { active := 0, running := 0, done := 0, phase := .idle }

/-- Atomic steps of the dispatcher and of the workers. -/
inductive DStep (maxc : Int) : DState → DState → Prop
  | check (s : DState) (h1 : s.phase = .idle) (h2 : s.active < maxc) :
      DStep maxc s { s with phase := .checked }
  | abort (s : DState) (h : s.phase = .checked) :
      DStep maxc s { s with phase := .idle }
  | mark (s : DState) (h : s.phase = .checked) :
      DStep maxc s { s with phase := .marked }
  | incSpawn (s : DState) (h : s.phase = .marked) :
      DStep maxc s { s with phase := .idle, active := s.active + 1, running := s.running + 1 }
  | finish (s : DState) (h : 1 ≤ s.running) :
      DStep maxc s { s with running := s.running - 1, done := s.done + 1 }
  | dec (s : DState) (h : 1 ≤ s.done) :
      DStep maxc s { s with done := s.done - 1, active := s.active - 1 }

/-- States reachable from startup under the concurrency cap `maxc`. -/
inductive DReach (maxc : Int) : DState → Prop
  | init : DReach maxc dInit
  | step {s s' : DState} : DReach maxc s → DStep maxc s s' → DReach maxc s'

/-- Number of records in status `processing`: the launched workers still
running plus the record the dispatcher has just marked but not yet handed to a
worker. -/
def processingCount (s : DState) : Nat :=
  s.running + (if s.phase = .marked then 1 else 0)

lemma dstep_inv {maxc : Int} {s s' : DState} (hstep : DStep maxc s s')
    (ih : s.active = s.running + s.done ∧ s.active ≤ maxc ∧
      (s.phase ≠ .idle → s.active < maxc)) :
    s'.active = s'.running + s'.done ∧ s'.active ≤ maxc ∧
      (s'.phase ≠ .idle → s'.active < maxc) := by
  obtain ⟨ih1, ih2, ih3⟩ := ih
  cases hstep with
  | check h1 h2 => exact ⟨ih1, ih2, fun _ => h2⟩
  | abort h => exact ⟨ih1, ih2, fun hc => absurd rfl hc⟩
  | mark h =>
    exact ⟨ih1, ih2, fun _ => ih3 (fun hc => by rw [h] at hc; exact DPhase.noConfusion hc)⟩
  | incSpawn h =>
    have hlt := ih3 (fun hc => by rw [h] at hc; exact DPhase.noConfusion hc)
    refine ⟨?_, ?_, fun hc => absurd rfl hc⟩
    · show s.active + 1 = ((s.running + 1 : Nat) : Int) + (s.done : Int)
      omega
    · show s.active + 1 ≤ maxc
      omega
  | finish h =>
    refine ⟨?_, ih2, ih3⟩
    show s.active = ((s.running - 1 : Nat) : Int) + ((s.done + 1 : Nat) : Int)
    omega
  | dec h =>
    refine ⟨?_, ?_, ?_⟩
    · show s.active - 1 = (s.running : Int) + ((s.done - 1 : Nat) : Int)
      omega
    · show s.active - 1 ≤ maxc
      omega
    · intro hc
      show s.active - 1 < maxc
      have := ih3 hc
      omega

lemma dreach_inv {maxc : Int} {s : DState} (hmax : 0 ≤ maxc) (h : DReach maxc s) :
    s.active = s.running + s.done ∧ s.active ≤ maxc ∧
      (s.phase ≠ .idle → s.active < maxc) := by
  induction h with
  | init => exact ⟨by simp [dInit], by simpa [dInit] using hmax, fun hc => absurd rfl hc⟩
  | step hr hstep ih => exact dstep_inv hstep ih

/-- Concurrency cap (claim C8): in every reachable state the number of
records in status `processing` — and the `active_requests` counter — is at
most `max_concurrent`.  The dispatcher is the only incrementer and launches a
worker only after observing `active_requests < max_concurrent`; between that
check and the increment the counter can only decrease. -/
theorem c8_concurrency_cap (maxc : Int) (s : DState)
    (hmax : 0 ≤ maxc) (h : DReach maxc s) :
    (processingCount s : Int) ≤ maxc ∧ s.active ≤ maxc := by
  obtain ⟨h1, h2, h3⟩ := dreach_inv hmax h
  refine ⟨?_, h2⟩
  by_cases hph : s.phase = .marked
  · have hlt := h3 (fun hc => by rw [hph] at hc; exact DPhase.noConfusion hc)
    rw [processingCount, if_pos hph]
    push_cast
    omega
  · rw [processingCount, if_neg hph]
    push_cast
    omega

/-- Witness for `c8_concurrency_cap` at startup with the default cap 25. -/
theorem c8_concurrency_cap_witness :
    (0 : Int) ≤ 25 ∧ (processingCount dInit : Int) ≤ 25 ∧ dInit.active ≤ 25 := by
  have h := c8_concurrency_cap 25 dInit (by norm_num) DReach.init
  exact ⟨by norm_num, h.1, h.2⟩

/-- Counter/worker correspondence (claim C10): in every reachable state
`active_requests` equals the number of live workers (running plus those
between their terminal write and their `finally` decrement) and is never
negative — each launch increments exactly once before the worker starts and
the `finally` block decrements exactly once, on success and on failure
alike. -/
theorem c10_active_matches_workers (maxc : Int) (s : DState)
    (hmax : 0 ≤ maxc) (h : DReach maxc s) :
    s.active = s.running + s.done ∧ 0 ≤ s.active := by
  obtain ⟨h1, _, _⟩ := dreach_inv hmax h
  exact ⟨h1, by omega⟩

/-- Witness for `c10_active_matches_workers` at startup with cap 25. -/
theorem c10_active_matches_workers_witness :
    (0 : Int) ≤ 25 ∧ dInit.active = dInit.running + dInit.done ∧ 0 ≤ dInit.active := by
  have h := c10_active_matches_workers 25 dInit (by norm_num) DReach.init
  exact ⟨by norm_num, h.1, h.2⟩
